import Mathlib

/-!
# Verification of the "Find in Files" search core

Shallow embedding of `src/thonny/plugins/find_in_files.py` (class
`FindInFilesDialog`): the background search worker (`_run_search`,
`_iter_files`), the dialog controller (`_start_search`, `_cancel_search`,
`_poll_queue`, `_finalize_search`), the bounded search history
(`_add_to_history`, `_save_history`) and result selection
(`_get_selected_match`, `_open_selected_match`).

Text is modelled as `List Char` (`Str`); Python `str` operations used by the
code (`strip`, `lower`, `find`, `in`, `int(...)`) are embedded below.  The
filesystem a search runs over is modelled as a tree `FSEntry`; a file's
decoded content is `Option (List Str)` — `none` models a file `_read_text`
fails to decode (the worker skips it), `some lines` models the decoded text
already split into lines, as `_run_search` does with `splitlines`.
-/

abbrev Str := List Char

/-- Python `str.strip()` (without arguments): remove leading and trailing
whitespace. -/
def pyStrip (s : Str) : Str :=
  ((s.dropWhile Char.isWhitespace).reverse.dropWhile Char.isWhitespace).reverse

/-- Python `str.lower()` (per-character lowering). -/
def pyLower (s : Str) : Str := s.map Char.toLower

/-- `_run_search` lowers both needle and haystack unless `match_case` is set. -/
def caseAdjust (matchCase : Bool) (s : Str) : Str :=
  if matchCase then s else pyLower s

/-! ## `fnmatch.fnmatch` — shell-style glob matching against a base name

`fnmatch` translates the pattern (`*`, `?`, `[...]` classes, literals) and
matches it against the whole name.  We embed the same two phases: compile the
pattern to tokens, then match.  POSIX `normcase` is the identity, so no case
folding happens here. -/

/-- Split a character-class body at its closing `]`; `none` when the bracket
is unterminated (then `[` is a literal, as in `fnmatch.translate`). -/
def splitClass : Str → Option (Str × Str)
  | [] => none
  | c :: rest =>
    if c = ']' then some ([], rest)
    else
      match splitClass rest with
      | some (content, after) => some (c :: content, after)
      | none => none

/-- Parse the part of the pattern following `[`: optional `!` negation, a
leading `]` taken literally, body up to the closing `]`.  Returns
`(negated, body, rest-of-pattern)`. -/
def takeClass (p : Str) : Option (Bool × Str × Str) :=
  let (neg, body) :=
    match p with
    | '!' :: rest => (true, rest)
    | _ => (false, p)
  match body with
  | ']' :: rest =>
    (match splitClass rest with
     | some (content, after) => some (neg, ']' :: content, after)
     | none => none)
  | _ =>
    (match splitClass body with
     | some (content, after) => some (neg, content, after)
     | none => none)

/-- Interpret a class body as ranges: `a-b` is a code-point range (a `-` at
the start or end of the body is a literal). -/
def classItems : Str → List (Char × Char)
  | [] => []
  | a :: '-' :: b :: rest => (a, b) :: classItems rest
  | c :: rest => (c, c) :: classItems rest

def classAccepts (neg : Bool) (items : List (Char × Char)) (c : Char) : Bool :=
  let inside := items.any fun ab => ab.1.toNat ≤ c.toNat && c.toNat ≤ ab.2.toNat
  if neg then !inside else inside

inductive GlobTok where
  | star
  | anyChar
  | lit (c : Char)
  | cls (neg : Bool) (items : List (Char × Char))
deriving DecidableEq

/-- Pattern compilation (`fnmatch.translate`), fuelled by the pattern length:
every step consumes at least one pattern character, so `p.length` fuel is
always sufficient. -/
def compileGlobFuel : Nat → Str → List GlobTok
  | 0, _ => []
  | _, [] => []
  | fuel + 1, '*' :: ps => .star :: compileGlobFuel fuel ps
  | fuel + 1, '?' :: ps => .anyChar :: compileGlobFuel fuel ps
  | fuel + 1, '[' :: ps =>
    (match takeClass ps with
     | some (neg, content, rest) => .cls neg (classItems content) :: compileGlobFuel fuel rest
     | none => .lit '[' :: compileGlobFuel fuel ps)
  | fuel + 1, c :: ps => .lit c :: compileGlobFuel fuel ps

def compileGlob (p : Str) : List GlobTok := compileGlobFuel p.length p

/-- Token matching (the regex phase of `fnmatch`), fuelled by
`tokens.length + name.length`: every recursive call shrinks that sum. -/
def matchToksFuel : Nat → List GlobTok → Str → Bool
  | 0, _, _ => false
  | _ + 1, [], [] => true
  | _ + 1, [], _ :: _ => false
  | fuel + 1, .star :: ts, name =>
    matchToksFuel fuel ts name ||
      (match name with
       | [] => false
       | _ :: ns => matchToksFuel fuel (.star :: ts) ns)
  | _ + 1, .anyChar :: _, [] => false
  | fuel + 1, .anyChar :: ts, _ :: ns => matchToksFuel fuel ts ns
  | _ + 1, .lit _ :: _, [] => false
  | fuel + 1, .lit c :: ts, n :: ns => (c = n) && matchToksFuel fuel ts ns
  | _ + 1, .cls _ _ :: _, [] => false
  | fuel + 1, .cls neg items :: ts, n :: ns =>
    classAccepts neg items n && matchToksFuel fuel ts ns

def matchToks (ts : List GlobTok) (name : Str) : Bool :=
  matchToksFuel (ts.length + name.length + 1) ts name

/-- `fnmatch.fnmatch(name, pattern)` on a POSIX system (`normcase` is the
identity there). -/
def globMatch (pattern name : Str) : Bool := matchToks (compileGlob pattern) name

/-! ## Filesystem model and `_iter_files` -/

/-- A directory tree.  File content is the result of `_read_text` followed by
`splitlines`: `none` when the file cannot be decoded (the worker skips it),
`some lines` otherwise. -/
inductive FSEntry where
  | file (name : Str) (content : Option (List Str))
  | dir (name : Str) (entries : List FSEntry)

def FSEntry.name : FSEntry → Str
  | .file n _ => n
  | .dir n _ => n

/-- Modelled from the spec: `IGNORED_FILES_AND_DIRS` comes from
`thonny.common`, which is not part of the sources; the spec describes it as a
fixed ignore set of "VCS metadata, build caches, virtual-environment folders,
etc.".  The claims do not depend on the exact membership, only on the set
being fixed. -/
def IGNORED_FILES_AND_DIRS : List Str :=
  [".git".data, ".svn".data, ".hg".data, "__pycache__".data, ".venv".data,
   "venv".data, "node_modules".data, ".DS_Store".data]

/-- The generator `walker` inside `_iter_files`: iterate the entries of the
current directory; skip entries named in the ignore set; recurse into
subdirectories; yield files whose base name matches the glob.  `pfx` is the
path of the current directory (list of path components from the root). -/
def walkList (pattern : Str) (pfx : List Str) : List FSEntry → List (List Str × Option (List Str))
  | [] => []
  | .file n c :: rest =>
    (if IGNORED_FILES_AND_DIRS.contains n then []
     else if globMatch pattern n then [(pfx ++ [n], c)] else []) ++
      walkList pattern pfx rest
  | .dir n es :: rest =>
    (if IGNORED_FILES_AND_DIRS.contains n then []
     else walkList pattern (pfx ++ [n]) es) ++
      walkList pattern pfx rest

/-- `_iter_files(root, pattern)`: a root that is a file is a singleton
candidate set (matched against the glob but not against the ignore set);
otherwise walk the root directory.  Paths are component lists starting with
the root's own name. -/
def iterFiles (root : FSEntry) (pattern : Str) : List (List Str × Option (List Str)) :=
  match root with
  | .file n c => if globMatch pattern n then [([n], c)] else []
  | .dir n es => walkList pattern [n] es

/-! ## Per-line occurrence scan (`_run_search` inner loop) -/

/-- Helper for Python `haystack.find(needle, start)`: scan the suffix of the
haystack beginning at absolute index `i`. -/
def pyFindAux (needle : Str) : Str → Nat → Option Nat
  | sfx, i =>
    if needle.isPrefixOf sfx then some i
    else
      match sfx with
      | [] => none
      | _ :: rest => pyFindAux needle rest (i + 1)

/-- Python `haystack.find(needle, start)`: the least index `i ≥ start` where
`needle` occurs (`none` for Python's `-1`).  For `start > len(haystack)` the
result is `none`, as in Python (even for an empty needle). -/
def pyFind (hay needle : Str) (start : Nat) : Option Nat :=
  if start ≤ hay.length then pyFindAux needle (hay.drop start) start else none

/-- The `while True` occurrence loop of `_run_search`, fuelled: find the next
occurrence from `start`, emit its index, restart at
`index + max(len(needle), 1)`.  Each iteration strictly increases `start`
(by the `max(·, 1)` step), so `hay.length + 1 - start` fuel is always
sufficient; `scanFuel_eq_scanFrom` below proves that bound. -/
def scanFuel (hay needle : Str) : Nat → Nat → List Nat
  | 0, _ => []
  | fuel + 1, start =>
    match pyFind hay needle start with
    | none => []
    | some i => i :: scanFuel hay needle fuel (i + max needle.length 1)

/-- All occurrence indices the inner loop of `_run_search` emits for one
line, scanning from `start`. -/
def scanFrom (hay needle : Str) (start : Nat) : List Nat :=
  scanFuel hay needle (hay.length + 1 - start) start

/-- `needle` occurs in `hay` as a substring at offset `col` (the set the
spec's exactness property quantifies over). -/
def occursAt (hay needle : Str) (col : Nat) : Bool :=
  decide (col + needle.length ≤ hay.length) && needle.isPrefixOf (hay.drop col)

/-! ## The worker (`_run_search` and the `worker` closure) -/

/-- Messages put on the results queue by the worker. -/
inductive Msg where
  | mtch (path : List Str) (lineno col : Nat) (line : Str)
  | summary (files nMatches : Nat)
  | done
deriving DecidableEq

/-- The `for lineno, line in enumerate(lines, start=1)` loop of
`_run_search`: for each line, emit one `match` message per occurrence found
by the inner scan.  `ln` is the number of the first line in `lines`. -/
def linesMsgs (path : List Str) (needle : Str) (matchCase : Bool) : Nat → List Str → List Msg
  | _, [] => []
  | ln, line :: rest =>
    (scanFrom (caseAdjust matchCase line) needle 0).map (fun col => Msg.mtch path ln col line) ++
      linesMsgs path needle matchCase (ln + 1) rest

/-- Messages emitted for one decoded file. -/
def fileMsgs (path : List Str) (lines : List Str) (needle : Str) (matchCase : Bool) : List Msg :=
  linesMsgs path needle matchCase 1 lines

/-- The file loop of `_run_search`: skip undecodable files, count decoded
files, emit match messages, count matches.  Returns
`(messages, total_files, total_matches)`. -/
def searchFiles (needle : Str) (matchCase : Bool) :
    List (List Str × Option (List Str)) → List Msg × Nat × Nat
  | [] => ([], 0, 0)
  | (_, none) :: rest => searchFiles needle matchCase rest
  | (p, some lines) :: rest =>
    let ms := fileMsgs p lines needle matchCase
    let r := searchFiles needle matchCase rest
    (ms ++ r.1, r.2.1 + 1, r.2.2 + ms.length)

/-- `_run_search(root_path, pattern, search_text, match_case)` on an
uncancelled run: emit a `match` message for every occurrence and finally a
`summary(total_files, total_matches)` message. -/
def runSearch (root : FSEntry) (pattern search_text : Str) (matchCase : Bool) : List Msg :=
  let needle := caseAdjust matchCase search_text
  let r := searchFiles needle matchCase (iterFiles root pattern)
  r.1 ++ [Msg.summary r.2.1 r.2.2]

/-- The `worker` closure of `_start_search`: run `_run_search` inside
`try: ... finally: queue.put(("done", None))`.  `exn = none` models a run
with no unexpected exception; `exn = some k` models an unexpected exception
raised inside `_run_search` after `k` queue messages have been put — the
remaining messages (including the final summary) are never put, but the
`finally` block still puts `done`. -/
def workerTrace (root : FSEntry) (pattern search_text : Str) (matchCase : Bool)
    (exn : Option Nat) : List Msg :=
  match exn with
  | none => runSearch root pattern search_text matchCase ++ [Msg.done]
  | some k => (runSearch root pattern search_text matchCase).take k ++ [Msg.done]

/-- The `(path, line, offset)` triples among a message list (claim C1's
"set of matches emitted"). -/
def emittedTriples (msgs : List Msg) : List (List Str × Nat × Nat) :=
  msgs.filterMap fun m =>
    match m with
    | .mtch p ln col _ => some (p, ln, col)
    | _ => none

/-! ## Claim-side characterisation of the search result (for C1)

The following definitions formalise the *specification's* description of the
match set, independently of the traversal: a triple `(p, ln, col)` is in the
set when `p` is the path of a file in the tree, its base name matches the
glob, no walked component is ignored, and `col` is an occurrence offset in
line `ln`. -/

/-- `IsFileAt root p c`: the path `p` (component list, starting with the
root's name) leads to a file with decoded content `c` inside `root`. -/
inductive IsFileAt : FSEntry → List Str → Option (List Str) → Prop where
  | fileSelf (n : Str) (c : Option (List Str)) : IsFileAt (.file n c) [n] c
  | dirStep (n : Str) (es : List FSEntry) (e : FSEntry) (p : List Str)
      (c : Option (List Str)) : e ∈ es → IsFileAt e p c →
      IsFileAt (.dir n es) (n :: p) c

/-- The claim's match set, as frozen in C1: `col` ranges over *all* substring
occurrence offsets of the term in the line (under the configured case
sensitivity); files restricted to glob-matching base names; walked components
(everything below the root) excluded when named in the ignore set. -/
def claimHit (root : FSEntry) (pattern term : Str) (matchCase : Bool)
    (x : List Str × Nat × Nat) : Prop :=
  ∃ nm lines line,
    x.1.getLast? = some nm ∧
    globMatch pattern nm = true ∧
    (x.1.drop 1).all (fun n => !IGNORED_FILES_AND_DIRS.contains n) = true ∧
    IsFileAt root x.1 (some lines) ∧
    1 ≤ x.2.1 ∧
    lines.get? (x.2.1 - 1) = some line ∧
    occursAt (caseAdjust matchCase line) (caseAdjust matchCase term) x.2.2 = true

/-- The amended match set: as `claimHit`, but `col` ranges over the offsets
produced by the greedy left-to-right non-overlapping scan (each occurrence is
the leftmost one starting at or after the previous occurrence's start plus
`max(len(needle), 1)`). -/
def greedyHit (root : FSEntry) (pattern term : Str) (matchCase : Bool)
    (x : List Str × Nat × Nat) : Prop :=
  ∃ nm lines line,
    x.1.getLast? = some nm ∧
    globMatch pattern nm = true ∧
    (x.1.drop 1).all (fun n => !IGNORED_FILES_AND_DIRS.contains n) = true ∧
    IsFileAt root x.1 (some lines) ∧
    1 ≤ x.2.1 ∧
    lines.get? (x.2.1 - 1) = some line ∧
    x.2.2 ∈ scanFrom (caseAdjust matchCase line) (caseAdjust matchCase term) 0

/-! ## Search history (`_add_to_history`, `_save_history`) -/

def MAX_HISTORY : Nat := 20

/-- `_add_to_history(history, value)`: strip the value; ignore it if empty;
remove an existing occurrence; insert at the front; truncate to the
capacity. -/
def addToHistory (history : List Str) (value : Str) : List Str :=
  let v := pyStrip value
  if v = [] then history
  else (v :: (if v ∈ history then history.erase v else history)).take MAX_HISTORY

/-- The accumulator loop of `_save_history`: keep the first occurrence of
every non-empty value. -/
def saveHistoryAux (unique : List Str) : List Str → List Str
  | [] => unique
  | item :: rest =>
    if item ≠ [] ∧ item ∉ unique then saveHistoryAux (unique ++ [item]) rest
    else saveHistoryAux unique rest

/-- `_save_history`: the list actually written to the persistence store. -/
def saveHistory (history : List Str) : List Str :=
  (saveHistoryAux [] history).take MAX_HISTORY

/-- Index of the first occurrence of `a` in a list (the list's length when
absent); used to state that `_save_history` preserves first-occurrence
order. -/
def firstIdx (a : Str) : List Str → Nat
  | [] => 0
  | b :: l => if b = a then 0 else firstIdx a l + 1

/-! ## Dialog controller state -/

structure SearchMatch where
  path : List Str
  lineno : Nat
  col : Nat
  line : Str
deriving DecidableEq

inductive RootKind where
  | local_
  | remote
deriving DecidableEq

structure RootOption where
  path : Str
  label : Str
  kind : RootKind
  usesLocalFilesystem : Bool
deriving DecidableEq

inductive WidgetState where
  | normal
  | disabled
  | readonly
deriving DecidableEq

/-- Observable dialog state (the `tk` variables, widget states and instance
attributes of `FindInFilesDialog` that the controller methods read or write).
The results queue contents are the not-yet-drained messages; `none` models
`self._results_queue is None`. -/
structure DialogState where
  searchVar : Str
  filterVar : Str
  rootVar : Str
  statusVar : Str
  matchCaseVar : Bool
  rootOptions : List (Str × RootOption)
  searchHistory : List Str
  filterHistory : List Str
  matchList : List SearchMatch
  treeItems : Nat
  searchText : Option Str
  currentRoot : Option RootOption
  searchRunning : Bool
  cancelRequested : Bool
  resultsQueue : Option (List Msg)
  searchThreadAlive : Bool
  searchButtonText : Str
  rootComboState : WidgetState
  filterComboState : WidgetState
  searchComboState : WidgetState
deriving DecidableEq

/-- `_finalize_search(message)`: reset the lifecycle state, re-enable the
input widgets, drop the queue and thread, and set the status text when a
non-empty message is given (`if message:` — Python truthiness). -/
def finalizeSearch (message : Option Str) (s : DialogState) : DialogState :=
  { s with
    searchRunning := false
    cancelRequested := false
    searchButtonText := "Search".data
    rootComboState := .readonly
    filterComboState := .normal
    searchComboState := .normal
    resultsQueue := none
    searchThreadAlive := false
    statusVar :=
      match message with
      | some m => if m = [] then s.statusVar else m
      | none => s.statusVar }

/-- `_cancel_search()`: set the cancellation flag, drop the thread (after a
bounded `join` that has no observable state effect), and finalize with the
"Search cancelled" message — with no guard on `_search_running`. -/
def cancelSearch (s : DialogState) : DialogState :=
  finalizeSearch (some "Search cancelled".data)
    { s with cancelRequested := true, searchThreadAlive := false }

/-- `_add_match(path, lineno, col, line)`: append to the stored match list
and insert a row into the result tree. -/
def addMatch (path : List Str) (lineno col : Nat) (line : Str) (s : DialogState) : DialogState :=
  { s with
    matchList := s.matchList ++ [SearchMatch.mk path lineno col line]
    treeItems := s.treeItems + 1 }

def foundMsg (nMatches files : Nat) : Str :=
  "Found ".data ++ (Nat.repr nMatches).data ++ " matches in ".data ++
    (Nat.repr files).data ++ " files".data

/-- One iteration of the drain loop in `_poll_queue` for a non-`done`
message: `match` appends to the results, `summary` updates the status text
only when `_search_running` is still set. -/
def processMsg (s : DialogState) : Msg → DialogState
  | .mtch p ln col line => addMatch p ln col line s
  | .summary files nMatches =>
    if s.searchRunning then
      { s with
        statusVar := if nMatches ≠ 0 then foundMsg nMatches files else "No matches found".data }
    else s
  | .done => s

/-- The drain loop of `_poll_queue`.  Processing `done` calls
`_finalize_search()`, which sets `_results_queue = None`; the next
`get_nowait()` on `None` then raises `AttributeError` (not caught by the
`except queue.Empty` handler), so the loop stops there and any remaining
messages are never processed. -/
def drainMsgs (s : DialogState) : List Msg → DialogState
  | [] => s
  | .done :: _ => finalizeSearch none s
  | m :: rest => drainMsgs (processMsg s m) rest

/-- `_poll_queue()`: return immediately when there is no queue, otherwise
drain all currently queued messages.  (Rescheduling via `after` is a timing
effect with no further state change and is not modelled.) -/
def pollQueue (s : DialogState) : DialogState :=
  match s.resultsQueue with
  | none => s
  | some msgs => drainMsgs { s with resultsQueue := some [] } msgs

/-! ## Starting a search (`_start_search`, `_on_search_button_click`) -/

/-- The arguments `_start_search` hands to the background worker when it
launches one. -/
structure LaunchInfo where
  rootPath : Str
  pattern : Str
  searchText : Str
  matchCase : Bool
deriving DecidableEq

/-- `_start_search(event)`: validation cascade and state mutations, in source
order.  `rootExists` is the filesystem oracle for `Path(...).exists()`.
Returns the new state and `some launch` exactly when a worker thread is
started. -/
def startSearch (rootExists : Str → Bool) (s : DialogState) : DialogState × Option LaunchInfo :=
  if s.searchRunning then (s, none)
  else
    let rootLabel := s.rootVar
    match if rootLabel = [] then none else s.rootOptions.lookup rootLabel with
    | none => ({ s with statusVar := "Select a valid root folder.".data }, none)
    | some rootOption =>
      if rootOption.kind = RootKind.remote ∧ rootOption.usesLocalFilesystem = false then
        ({ s with statusVar := "Searching remote files is not supported for this backend.".data },
         none)
      else
        let search_text := pyStrip s.searchVar
        if search_text = [] then
          ({ s with statusVar := "Enter search text".data }, none)
        else
          let file_filter := if pyStrip s.filterVar = [] then "*".data else pyStrip s.filterVar
          if rootExists rootOption.path = false then
            ({ s with statusVar := "The selected root folder does not exist.".data }, none)
          else
            ({ s with
                searchHistory := addToHistory s.searchHistory search_text
                filterHistory := addToHistory s.filterHistory file_filter
                treeItems := 0
                matchList := []
                statusVar := "Searching…".data
                searchText := some search_text
                currentRoot := some rootOption
                cancelRequested := false
                searchRunning := true
                searchButtonText := "Stop".data
                rootComboState := .disabled
                filterComboState := .disabled
                searchComboState := .disabled
                resultsQueue := some []
                searchThreadAlive := true },
             some ⟨rootOption.path, file_filter, search_text, s.matchCaseVar⟩)

/-- `_on_search_button_click()`: cancel when a search is running, else
start. -/
def onSearchButtonClick (rootExists : Str → Bool) (s : DialogState) :
    DialogState × Option LaunchInfo :=
  if s.searchRunning then (cancelSearch s, none) else startSearch rootExists s

/-! ## Result selection (`_get_selected_match`, `_open_selected_match`) -/

/-- Digit run of Python `int(...)`: digits with single underscores allowed
between digits. -/
def pyIntDigits : Nat → Str → Option Nat
  | acc, [] => some acc
  | acc, '_' :: c :: rest =>
    if c.isDigit then pyIntDigits (acc * 10 + (c.toNat - 48)) rest else none
  | _, '_' :: [] => none
  | acc, c :: rest =>
    if c.isDigit then pyIntDigits (acc * 10 + (c.toNat - 48)) rest else none

/-- Python `int(s)` on a string: strip whitespace, optional sign, non-empty
digit run; `none` models `ValueError`. -/
def pyInt (s : Str) : Option Int :=
  let t := pyStrip s
  match t with
  | '+' :: c :: rest =>
    if c.isDigit then (pyIntDigits (c.toNat - 48) rest).map Int.ofNat else none
  | '-' :: c :: rest =>
    if c.isDigit then (pyIntDigits (c.toNat - 48) rest).map (fun n => -(n : Int)) else none
  | c :: rest =>
    if c.isDigit then (pyIntDigits (c.toNat - 48) rest).map Int.ofNat else none
  | [] => none

/-- `_get_selected_match()`: the first selected tree item id, parsed as an
integer and used as an index into the stored match list when in bounds. -/
def getSelectedMatch (selection : List Str) (matchList : List SearchMatch) :
    Option SearchMatch :=
  match selection with
  | [] => none
  | s :: _ =>
    match pyInt s with
    | none => none
    | some i =>
      if 0 ≤ i ∧ i.toNat < matchList.length then matchList.get? i.toNat else none

/-- The request `_open_selected_match` sends to the editor notebook. -/
structure OpenRequest where
  path : List Str
  range : Nat × Nat × Nat × Nat
deriving DecidableEq

/-- `_open_selected_match(event)`: no-op without a selected match or editor
notebook; otherwise compute the highlight range from the stored match and the
remembered search text and request opening the file. -/
def openSelectedMatch (selection : List Str) (matchList : List SearchMatch)
    (searchText : Option Str) (notebookAvailable : Bool) : Option OpenRequest :=
  match getSelectedMatch selection matchList with
  | none => none
  | some m =>
    if notebookAvailable = false then none
    else
      let searchLen := (searchText.getD []).length
      let searchLen := if searchLen = 0 then m.line.length - m.col else searchLen
      let endCol := m.col + max searchLen 1
      some ⟨m.path, (m.lineno, m.col, m.lineno, endCol)⟩

/-! ## Concrete sample inputs used by witnesses and counterexamples -/

/-- A root directory holding one text file whose single line is `aaa`. -/
def tree0 : FSEntry := .dir "r".data [.file "a.txt".data (some ["aaa".data])]

/-- An idle dialog showing the result of a finished search. -/
def sampleIdle : DialogState :=
  ⟨[], [], [], "No matches found".data, false, [], [], [], [], 0, none, none,
   false, false, none, false, "Search".data, .readonly, .normal, .normal⟩

/-- A dialog with a search in progress. -/
def sampleRunning : DialogState :=
  { sampleIdle with
    searchRunning := true
    statusVar := "Searching…".data
    resultsQueue := some []
    searchThreadAlive := true
    searchButtonText := "Stop".data
    rootComboState := .disabled
    filterComboState := .disabled
    searchComboState := .disabled }

/-- An idle dialog ready to start a search: a valid local root, a non-empty
search term, and an all-whitespace filter. -/
def sampleReady : DialogState :=
  { sampleIdle with
    rootVar := "r".data
    rootOptions := [("r".data, ⟨"r".data, "r".data, RootKind.local_, false⟩)]
    searchVar := "abc".data
    filterVar := "   ".data }

/-- A filesystem oracle on which every path exists. -/
def alwaysExists : Str → Bool := fun _ => true

/-! # Theorems -/

/-! ## C3 — `cancel()` when no search is running -/

/-- C3 (counterexample): invoking `_cancel_search` on an idle dialog is *not*
a no-op — it overwrites the status text with "Search cancelled". -/
theorem cancel_idle_not_noop :
    sampleIdle.searchRunning = false ∧ cancelSearch sampleIdle ≠ sampleIdle := by
  constructor
  · rfl
  · decide

/-- C3 (amended): `_cancel_search` is unguarded — in every state, running or
not, it sets and immediately clears the cancellation flag, marks the search
not running, drops the queue and thread, restores the input widgets, and
unconditionally sets the status text to "Search cancelled"; all other state
(matches, histories, input fields, options) is left unchanged. -/
theorem cancelSearch_characterisation (s : DialogState) :
    cancelSearch s =
      { s with
        searchRunning := false
        cancelRequested := false
        searchButtonText := "Search".data
        rootComboState := .readonly
        filterComboState := .normal
        searchComboState := .normal
        resultsQueue := none
        searchThreadAlive := false
        statusVar := "Search cancelled".data } := by
  simp [cancelSearch, finalizeSearch]

/-! ## C5 — starting while a search is running is rejected -/

/-- C5: while a search is running, `_start_search` (also bound to the Return
key) is a strict no-op — same state, no worker launched — and the search
button click cancels instead of starting a second worker. -/
theorem start_while_running_noop (rootExists : Str → Bool) (s : DialogState)
    (h : s.searchRunning = true) :
    startSearch rootExists s = (s, none) ∧
      onSearchButtonClick rootExists s = (cancelSearch s, none) := by
  constructor
  · simp [startSearch, h]
  · simp [onSearchButtonClick, h]

theorem start_while_running_noop_witness :
    sampleRunning.searchRunning = true ∧
      startSearch alwaysExists sampleRunning = (sampleRunning, none) ∧
      onSearchButtonClick alwaysExists sampleRunning = (cancelSearch sampleRunning, none) :=
  ⟨rfl, (start_while_running_noop alwaysExists sampleRunning rfl).1,
    (start_while_running_noop alwaysExists sampleRunning rfl).2⟩

/-! ## C4 — a late summary never overwrites the cancelled status -/

/-- C4: a `summary` message drained while the session is no longer running
leaves the status text unchanged (only `Running` sessions have their status
updated), and after an explicit cancel the poller leaves the "Search
cancelled" status in place. -/
theorem summary_respects_cancelled (s : DialogState) (msgs : List Msg)
    (h : s.searchRunning = false) :
    (drainMsgs s msgs).statusVar = s.statusVar ∧
      (pollQueue (cancelSearch s)).statusVar = "Search cancelled".data := by
  constructor
  · induction msgs generalizing s with
    | nil => rfl
    | cons m rest ih =>
      cases m with
      | done => simp [drainMsgs, finalizeSearch]
      | mtch p ln col line =>
        simp only [drainMsgs]
        rw [ih _ (by simp [processMsg, addMatch, h])]
        simp [processMsg, addMatch]
      | summary files nMatches =>
        simp only [drainMsgs]
        rw [ih _ (by simp [processMsg, h])]
        simp [processMsg, h]
  · simp [pollQueue, cancelSearch, finalizeSearch]

theorem summary_respects_cancelled_witness :
    sampleIdle.searchRunning = false ∧
      (drainMsgs sampleIdle [Msg.summary 2 3]).statusVar = sampleIdle.statusVar ∧
      (pollQueue (cancelSearch sampleIdle)).statusVar = "Search cancelled".data :=
  ⟨rfl, (summary_respects_cancelled sampleIdle [Msg.summary 2 3] rfl).1,
    (summary_respects_cancelled sampleIdle [Msg.summary 2 3] rfl).2⟩

/-! ## C7 — empty search terms are rejected before the worker starts -/

lemma matchToksFuel_star (fuel : Nat) (name : Str) (h : name.length + 2 ≤ fuel) :
    matchToksFuel fuel [GlobTok.star] name = true := by
  induction fuel generalizing name with
  | zero => omega
  | succ f ih =>
    cases name with
    | nil =>
      have hf : 1 ≤ f := by omega
      obtain ⟨g, rfl⟩ : ∃ g, f = g + 1 := ⟨f - 1, by omega⟩
      simp [matchToksFuel]
    | cons c ns =>
      have := ih ns (by simpa using Nat.le_of_succ_le_succ h)
      simp [matchToksFuel, this]

/-- Every base name matches the default pattern `*`. -/
lemma globMatch_star (name : Str) : globMatch "*".data name = true := by
  have h1 : compileGlob "*".data = [GlobTok.star] := rfl
  unfold globMatch matchToks
  rw [h1]
  exact matchToksFuel_star _ name (by simp; omega)

/-- C7: a search whose term strips to the empty string is rejected inside
`_start_search` before any worker thread is created — no launch happens, the
thread state is untouched, and one of the three synchronous rejection
messages is shown; moreover a launched search whose filter strips to the
empty string uses the pattern `*`, and `*` matches every base name. -/
theorem empty_term_rejected :
    (∀ (rootExists : Str → Bool) (s : DialogState),
      s.searchRunning = false → pyStrip s.searchVar = [] →
      (startSearch rootExists s).2 = none ∧
      (startSearch rootExists s).1.searchThreadAlive = s.searchThreadAlive ∧
      ((startSearch rootExists s).1.statusVar = "Select a valid root folder.".data ∨
       (startSearch rootExists s).1.statusVar =
         "Searching remote files is not supported for this backend.".data ∨
       (startSearch rootExists s).1.statusVar = "Enter search text".data)) ∧
    (∀ (rootExists : Str → Bool) (s : DialogState) (info : LaunchInfo),
      (startSearch rootExists s).2 = some info → pyStrip s.filterVar = [] →
      info.pattern = "*".data) ∧
    (∀ name : Str, globMatch "*".data name = true) := by
  refine ⟨?_, ?_, globMatch_star⟩
  · intro rootExists s hrun hterm
    rw [startSearch]
    simp only [hrun, Bool.false_eq_true, if_false]
    cases hlook : (if s.rootVar = [] then none else s.rootOptions.lookup s.rootVar) with
    | none => simp
    | some opt =>
      simp only []
      by_cases hrem : opt.kind = RootKind.remote ∧ opt.usesLocalFilesystem = false
      · simp [hrem]
      · simp [hrem, hterm]
  · intro rootExists s info hlaunch hfilter
    rw [startSearch] at hlaunch
    by_cases hrun : s.searchRunning
    · simp [hrun] at hlaunch
    · simp only [hrun, Bool.false_eq_true, if_false] at hlaunch
      cases hlook : (if s.rootVar = [] then none else s.rootOptions.lookup s.rootVar) with
      | none => rw [hlook] at hlaunch; simp at hlaunch
      | some opt =>
        rw [hlook] at hlaunch
        by_cases hrem : opt.kind = RootKind.remote ∧ opt.usesLocalFilesystem = false
        · simp [hrem] at hlaunch
        · simp only [hrem, if_false] at hlaunch
          by_cases hterm : pyStrip s.searchVar = []
          · simp [hterm] at hlaunch
          · simp only [hterm, if_false] at hlaunch
            by_cases hex : rootExists opt.path = false
            · simp [hex] at hlaunch
            · simp only [hex, if_false] at hlaunch
              simp only [hfilter, if_true] at hlaunch
              cases hlaunch' : hlaunch
              simp at hlaunch
              obtain ⟨-, rfl⟩ := hlaunch
              rfl

theorem empty_term_rejected_witness :
    ((startSearch alwaysExists { sampleIdle with searchVar := "   ".data }).2 = none ∧
     (startSearch alwaysExists { sampleIdle with searchVar := "   ".data }).1.searchThreadAlive =
       ({ sampleIdle with searchVar := "   ".data } : DialogState).searchThreadAlive ∧
     ((startSearch alwaysExists { sampleIdle with searchVar := "   ".data }).1.statusVar =
        "Select a valid root folder.".data ∨
      (startSearch alwaysExists { sampleIdle with searchVar := "   ".data }).1.statusVar =
        "Searching remote files is not supported for this backend.".data ∨
      (startSearch alwaysExists { sampleIdle with searchVar := "   ".data }).1.statusVar =
        "Enter search text".data)) ∧
    (LaunchInfo.mk "r".data "*".data "abc".data false).pattern = "*".data ∧
    globMatch "*".data "a.txt".data = true :=
  ⟨empty_term_rejected.1 alwaysExists { sampleIdle with searchVar := "   ".data } rfl (by decide),
   empty_term_rejected.2.1 alwaysExists sampleReady (LaunchInfo.mk "r".data "*".data "abc".data false)
     (by decide) (by decide),
   empty_term_rejected.2.2 "a.txt".data⟩

/-! ## C6 — bounded, de-duplicating, most-recent-first history insertion -/

/-- C6: after inserting a (non-empty-after-strip) value, the history holds at
most 20 entries, the stripped value sits at the front (most-recent-first),
and its number of occurrences has not grown beyond what uniqueness allows —
inserting an already-present value moves it to the front instead of
duplicating it. -/
theorem addToHistory_bounded (history : List Str) (value : Str)
    (h : pyStrip value ≠ []) :
    (addToHistory history value).length ≤ MAX_HISTORY ∧
    (addToHistory history value).head? = some (pyStrip value) ∧
    (addToHistory history value).count (pyStrip value) ≤
      max (history.count (pyStrip value)) 1 := by
  unfold addToHistory
  simp only [h, if_false]
  refine ⟨List.length_take_le _ _, ?_, ?_⟩
  · show ((pyStrip value :: _).take MAX_HISTORY).head? = _
    rw [show MAX_HISTORY = 19 + 1 from rfl, List.take_succ_cons]
    rfl
  · calc ((pyStrip value :: _).take MAX_HISTORY).count (pyStrip value)
        ≤ (pyStrip value ::
            (if pyStrip value ∈ history then history.erase (pyStrip value) else history)).count
            (pyStrip value) := (List.take_sublist _ _).count_le _
    _ ≤ max (history.count (pyStrip value)) 1 := by
        rw [List.count_cons_self]
        by_cases hmem : pyStrip value ∈ history
        · have hpos : 0 < history.count (pyStrip value) := List.count_pos_iff.mpr hmem
          simp only [hmem, if_true, List.count_erase_self]
          omega
        · have hz : history.count (pyStrip value) = 0 := by
            exact List.count_eq_zero.mpr hmem
          simp [hmem, hz]

theorem addToHistory_bounded_witness :
    pyStrip " ab ".data ≠ [] ∧
      ((addToHistory ["x".data, "ab".data] " ab ".data).length ≤ MAX_HISTORY ∧
       (addToHistory ["x".data, "ab".data] " ab ".data).head? = some (pyStrip " ab ".data) ∧
       (addToHistory ["x".data, "ab".data] " ab ".data).count (pyStrip " ab ".data) ≤
         max ((["x".data, "ab".data] : List Str).count (pyStrip " ab ".data)) 1) :=
  ⟨by decide, addToHistory_bounded ["x".data, "ab".data] " ab ".data (by decide)⟩

/-! ## C9 — selected-match lookup is total and exact -/

/-- C9: `_get_selected_match` returns a stored match exactly when the first
selected item id parses as an integer `i` with `0 ≤ i <` number of matches
(and then returns the match at that index); for an empty selection, an
unparsable id or an out-of-range index it returns `none`, and
`_open_selected_match` is then a no-op. -/
theorem getSelectedMatch_exact (selection : List Str) (matchList : List SearchMatch)
    (searchText : Option Str) (notebookAvailable : Bool) :
    (∀ m, getSelectedMatch selection matchList = some m ↔
      ∃ s, selection.head? = some s ∧
        ∃ i : Int, pyInt s = some i ∧ 0 ≤ i ∧ i.toNat < matchList.length ∧
          matchList.get? i.toNat = some m) ∧
    (getSelectedMatch selection matchList = none →
      openSelectedMatch selection matchList searchText notebookAvailable = none) := by
  constructor
  · intro m
    cases selection with
    | nil => simp [getSelectedMatch]
    | cons s rest =>
      cases hp : pyInt s with
      | none => simp [getSelectedMatch, hp]
      | some i =>
        by_cases hb : 0 ≤ i ∧ i.toNat < matchList.length
        · simp [getSelectedMatch, hp, hb.1, hb.2]
        · rw [getSelectedMatch]
          rw [hp]
          simp only [hb, if_false]
          constructor
          · intro hfalse; exact absurd hfalse (by simp)
          · rintro ⟨s', hs', i', hi', hnn, hlt, -⟩
            simp at hs'
            subst hs'
            rw [hp] at hi'
            cases hi'
            exact absurd ⟨hnn, hlt⟩ hb
  · intro hnone
    rw [openSelectedMatch, hnone]

theorem getSelectedMatch_exact_witness :
    (getSelectedMatch ["1".data] [SearchMatch.mk ["a".data] 1 0 "aa".data,
        SearchMatch.mk ["b".data] 2 3 "bb".data] =
      some (SearchMatch.mk ["b".data] 2 3 "bb".data) ↔
      ∃ s, (["1".data] : List Str).head? = some s ∧
        ∃ i : Int, pyInt s = some i ∧ 0 ≤ i ∧
          i.toNat < ([SearchMatch.mk ["a".data] 1 0 "aa".data,
            SearchMatch.mk ["b".data] 2 3 "bb".data] : List SearchMatch).length ∧
          ([SearchMatch.mk ["a".data] 1 0 "aa".data,
            SearchMatch.mk ["b".data] 2 3 "bb".data] : List SearchMatch).get? i.toNat =
            some (SearchMatch.mk ["b".data] 2 3 "bb".data)) ∧
    openSelectedMatch ["zz".data] [] none true = none :=
  ⟨(getSelectedMatch_exact ["1".data] [SearchMatch.mk ["a".data] 1 0 "aa".data,
      SearchMatch.mk ["b".data] 2 3 "bb".data] none true).1 _,
   (getSelectedMatch_exact ["zz".data] [] none true).2 (by decide)⟩

/-! ## C10 — the persisted history list is clean -/

lemma firstIdx_cons_self (a : Str) (l : List Str) : firstIdx a (a :: l) = 0 := by
  simp [firstIdx]

lemma firstIdx_append_of_not_mem {a : Str} {p : List Str} (h : a ∉ p) (l : List Str) :
    firstIdx a (p ++ l) = p.length + firstIdx a l := by
  induction p with
  | nil => simp
  | cons b q ih =>
    have hba : b ≠ a := fun e => h (e ▸ List.mem_cons_self b q)
    have hq : a ∉ q := fun e => h (List.mem_cons_of_mem b e)
    simp [firstIdx, hba, ih hq]
    omega

lemma saveHistoryAux_invariant (h : List Str) :
    ∀ (xs p acc : List Str), h = p ++ xs →
    (∀ a, a ∈ acc ↔ (a ∈ p ∧ a ≠ [])) →
    acc.Nodup →
    acc.Pairwise (fun a b => firstIdx a h < firstIdx b h) →
    (∀ a ∈ acc, firstIdx a h < p.length) →
    (saveHistoryAux acc xs).Nodup ∧
    (∀ a, a ∈ saveHistoryAux acc xs ↔ (a ∈ h ∧ a ≠ [])) ∧
    (saveHistoryAux acc xs).Pairwise (fun a b => firstIdx a h < firstIdx b h) := by
  intro xs
  induction xs with
  | nil =>
    intro p acc hh hmem hnd hpw hidx
    rw [List.append_nil] at hh
    subst hh
    exact ⟨hnd, hmem, hpw⟩
  | cons item rest ih =>
    intro p acc hh hmem hnd hpw hidx
    by_cases hkeep : item ≠ [] ∧ item ∉ acc
    · rw [show saveHistoryAux acc (item :: rest) = saveHistoryAux (acc ++ [item]) rest from by
        simp [saveHistoryAux, hkeep.1, hkeep.2]]
      have hip : item ∉ p := fun hmemp => hkeep.2 ((hmem item).mpr ⟨hmemp, hkeep.1⟩)
      have hidxitem : firstIdx item h = p.length := by
        rw [hh, firstIdx_append_of_not_mem hip, firstIdx_cons_self]
        omega
      refine ih (p ++ [item]) (acc ++ [item]) (by rw [hh]; simp) ?_ ?_ ?_ ?_
      · intro a
        simp only [List.mem_append, List.mem_singleton]
        constructor
        · rintro (ha | rfl)
          · have := (hmem a).mp ha
            exact ⟨Or.inl this.1, this.2⟩
          · exact ⟨Or.inr rfl, hkeep.1⟩
        · rintro ⟨ha | rfl, hne⟩
          · exact Or.inl ((hmem a).mpr ⟨ha, hne⟩)
          · exact Or.inr rfl
      · rw [List.nodup_append]
        exact ⟨hnd, List.nodup_singleton _, by simpa using hkeep.2⟩
      · rw [List.pairwise_append]
        refine ⟨hpw, List.pairwise_singleton _ _, ?_⟩
        intro a ha b hb
        rw [List.mem_singleton] at hb
        subst hb
        rw [hidxitem]
        exact hidx a ha
      · intro a ha
        rw [List.mem_append, List.mem_singleton] at ha
        rcases ha with ha | rfl
        · have := hidx a ha
          simp only [List.length_append, List.length_singleton]
          omega
        · rw [hidxitem]
          simp
    · rw [show saveHistoryAux acc (item :: rest) = saveHistoryAux acc rest from by
        by_cases h1 : item = [] <;> simp [saveHistoryAux, h1] <;>
          simp [not_and_or, not_not] at hkeep <;> tauto]
      refine ih (p ++ [item]) acc (by rw [hh]; simp) ?_ hnd hpw ?_
      · intro a
        rw [hmem a]
        simp only [List.mem_append, List.mem_singleton]
        constructor
        · rintro ⟨ha, hne⟩; exact ⟨Or.inl ha, hne⟩
        · rintro ⟨ha | rfl, hne⟩
          · exact ⟨ha, hne⟩
          · rcases hkeep' : (not_and_or.mp hkeep) with h1 | h2
            · rw [not_not] at h1; exact absurd h1 hne
            · rw [not_not] at h2
              exact ⟨((hmem a).mp h2).1, hne⟩
      · intro a ha
        have := hidx a ha
        simp only [List.length_append, List.length_singleton]
        omega

/-- C10: the list `_save_history` writes to the persistence store contains no
empty strings, no duplicate values, lists surviving values in the order of
their first occurrence in the in-memory history, and holds at most 20
entries — for every in-memory list, including ones with duplicates, empty
strings or more than 20 entries. -/
theorem saveHistory_clean (history : List Str) :
    (saveHistory history).length ≤ MAX_HISTORY ∧
    (saveHistory history).Nodup ∧
    (∀ x ∈ saveHistory history, x ∈ history ∧ x ≠ []) ∧
    (saveHistory history).Pairwise
      (fun a b => firstIdx a history < firstIdx b history) := by
  obtain ⟨hnd, hmem, hpw⟩ :=
    saveHistoryAux_invariant history history [] [] rfl (by simp) (by simp) (by simp) (by simp)
  unfold saveHistory
  refine ⟨List.length_take_le _ _, (List.take_sublist _ _).nodup hnd, ?_,
    hpw.sublist (List.take_sublist _ _)⟩
  intro x hx
  exact (hmem x).mp (List.take_subset _ _ hx)

theorem saveHistory_clean_witness :
    (saveHistory ["a".data, [], "a".data, "b".data]).length ≤ MAX_HISTORY ∧
      ("a".data ∈ (["a".data, [], "a".data, "b".data] : List Str) ∧ "a".data ≠ []) :=
  ⟨(saveHistory_clean ["a".data, [], "a".data, "b".data]).1,
   (saveHistory_clean ["a".data, [], "a".data, "b".data]).2.2.1 "a".data (by decide)⟩

/-! ## C2 — `done` after an internal error arrives without a summary -/

/-- C2 (counterexample): a worker run interrupted by an unexpected exception
before any message was put (`exn = some 0`) signals `done` — the `finally`
block — but no summary message precedes it, although the tree contains a
scannable file. -/
theorem worker_error_summary_counterexample :
    workerTrace tree0 "*".data "a".data true (some 0) = [Msg.done] ∧
    ∀ files nMatches,
      Msg.summary files nMatches ∉ workerTrace tree0 "*".data "a".data true (some 0) := by
  have h : workerTrace tree0 "*".data "a".data true (some 0) = [Msg.done] := by
    simp [workerTrace]
  exact ⟨h, fun f m => by rw [h]; simp⟩

/-- C2 (amended): the worker signals `done` unconditionally as its final
message, including runs interrupted by an unexpected exception at any point;
on a run that is *not* interrupted the full `_run_search` trace is emitted
and ends with a summary immediately before `done` — but an interrupted run
may signal `done` without ever having emitted a summary. -/
theorem worker_done_unconditional (root : FSEntry) (pattern term : Str) (mc : Bool)
    (exn : Option Nat) :
    (workerTrace root pattern term mc exn).getLast? = some Msg.done ∧
    workerTrace root pattern term mc none = runSearch root pattern term mc ++ [Msg.done] ∧
    ∃ files nMatches,
      (runSearch root pattern term mc).getLast? = some (Msg.summary files nMatches) := by
  refine ⟨?_, rfl, ?_⟩
  · cases exn <;> simp [workerTrace]
  · refine ⟨(searchFiles (caseAdjust mc term) mc (iterFiles root pattern)).2.1,
      (searchFiles (caseAdjust mc term) mc (iterFiles root pattern)).2.2, ?_⟩
    simp [runSearch]

/-! ## C8 — the per-line occurrence loop: progress and termination -/

lemma pyFindAux_some {needle : Str} :
    ∀ (sfx : Str) (i j : Nat), pyFindAux needle sfx i = some j →
      i ≤ j ∧ j ≤ i + sfx.length ∧ needle.isPrefixOf (sfx.drop (j - i)) = true := by
  intro sfx
  induction sfx with
  | nil =>
    intro i j h
    rw [pyFindAux] at h
    by_cases hp : needle.isPrefixOf [] = true
    · simp [hp] at h
      subst h
      simpa using hp
    · simp [hp] at h
  | cons c rest ih =>
    intro i j h
    rw [pyFindAux] at h
    by_cases hp : needle.isPrefixOf (c :: rest) = true
    · simp [hp] at h
      subst h
      simpa using hp
    · simp [hp] at h
      obtain ⟨h1, h2, h3⟩ := ih (i + 1) j h
      refine ⟨by omega, by simp; omega, ?_⟩
      have hji : j - i = (j - (i + 1)) + 1 := by omega
      rw [hji, List.drop_succ_cons]
      exact h3

lemma pyFind_some {hay needle : Str} {start j : Nat}
    (h : pyFind hay needle start = some j) :
    start ≤ j ∧ j ≤ hay.length ∧ needle.isPrefixOf (hay.drop j) = true := by
  rw [pyFind] at h
  by_cases hs : start ≤ hay.length
  · rw [if_pos hs] at h
    obtain ⟨h1, h2, h3⟩ := pyFindAux_some _ _ _ h
    rw [List.length_drop] at h2
    refine ⟨h1, by omega, ?_⟩
    rw [List.drop_drop] at h3
    have heq : start + (j - start) = j := by omega
    rwa [heq] at h3
  · rw [if_neg hs] at h
    cases h

lemma occursAt_of_pyFind {hay needle : Str} {start j : Nat}
    (h : pyFind hay needle start = some j) : occursAt hay needle j = true := by
  obtain ⟨-, h2, h3⟩ := pyFind_some h
  have hlen : needle.length ≤ (hay.drop j).length :=
    (List.isPrefixOf_iff_prefix.mp h3).length_le
  rw [List.length_drop] at hlen
  rw [occursAt]
  simp only [h3, Bool.and_true, decide_eq_true_eq]
  omega

lemma pyFind_none_of_lt {hay needle : Str} {start : Nat} (h : hay.length < start) :
    pyFind hay needle start = none := by
  rw [pyFind, if_neg (by omega)]

lemma scanFuel_ge {hay needle : Str} :
    ∀ (fuel start x : Nat), x ∈ scanFuel hay needle fuel start → start ≤ x := by
  intro fuel
  induction fuel with
  | zero => intro start x h; simp [scanFuel] at h
  | succ f ih =>
    intro start x h
    rw [scanFuel] at h
    cases hf : pyFind hay needle start with
    | none => rw [hf] at h; simp at h
    | some i =>
      rw [hf] at h
      rcases List.mem_cons.mp h with rfl | h
      · exact (pyFind_some hf).1
      · have h1 := ih _ _ h
        have h2 := (pyFind_some hf).1
        have h3 : 1 ≤ max needle.length 1 := le_max_right _ _
        omega

lemma scanFuel_occurs {hay needle : Str} :
    ∀ (fuel start x : Nat), x ∈ scanFuel hay needle fuel start →
      occursAt hay needle x = true := by
  intro fuel
  induction fuel with
  | zero => intro start x h; simp [scanFuel] at h
  | succ f ih =>
    intro start x h
    rw [scanFuel] at h
    cases hf : pyFind hay needle start with
    | none => rw [hf] at h; simp at h
    | some i =>
      rw [hf] at h
      rcases List.mem_cons.mp h with rfl | h
      · exact occursAt_of_pyFind hf
      · exact ih _ _ h

lemma scanFuel_chain {hay needle : Str} :
    ∀ (fuel start : Nat),
      List.Chain' (fun a b => a + max needle.length 1 ≤ b)
        (scanFuel hay needle fuel start) := by
  intro fuel
  induction fuel with
  | zero => intro start; simp [scanFuel]
  | succ f ih =>
    intro start
    rw [scanFuel]
    cases hf : pyFind hay needle start with
    | none => simp
    | some i =>
      rw [List.chain'_cons']
      refine ⟨?_, ih _⟩
      intro b hb
      exact scanFuel_ge _ _ _ (List.mem_of_mem_head? hb)

lemma scanFuel_congr {hay needle : Str} :
    ∀ (f g start : Nat), hay.length + 1 - start ≤ f → hay.length + 1 - start ≤ g →
      scanFuel hay needle f start = scanFuel hay needle g start := by
  intro f
  induction f with
  | zero =>
    intro g start hf hg
    have hs : hay.length < start := by omega
    cases g with
    | zero => rfl
    | succ g' => rw [scanFuel, scanFuel, pyFind_none_of_lt hs]
  | succ f' ih =>
    intro g start hf hg
    cases g with
    | zero =>
      have hs : hay.length < start := by omega
      rw [scanFuel, scanFuel, pyFind_none_of_lt hs]
    | succ g' =>
      rw [scanFuel, scanFuel]
      cases hfind : pyFind hay needle start with
      | none => rfl
      | some i =>
        obtain ⟨h1, h2, -⟩ := pyFind_some hfind
        have h3 : 1 ≤ max needle.length 1 := le_max_right _ _
        simp only [ih g' (i + max needle.length 1) (by omega) (by omega)]

/-- C8: for every line and needle the inner occurrence loop of `_run_search`
(a) only reports genuine substring occurrences, (b) reports them left to
right, each at least `max(len(needle), 1)` after the previous one — the
restart at `match_start + max(len(needle), 1)` strictly increases the search
position, so occurrences never overlap — and (c) terminates: any fuel bound
of at least `len(line) + 1` iterations yields the same, stable result, even
for empty or degenerate needles. -/
theorem scan_progress_terminates (hay needle : Str) :
    (∀ col ∈ scanFrom hay needle 0, occursAt hay needle col = true) ∧
    List.Chain' (fun a b => a + max needle.length 1 ≤ b) (scanFrom hay needle 0) ∧
    (∀ fuel, hay.length + 1 ≤ fuel → scanFuel hay needle fuel 0 = scanFrom hay needle 0) := by
  refine ⟨fun col h => scanFuel_occurs _ _ _ h, scanFuel_chain _ _, fun fuel hf => ?_⟩
  exact scanFuel_congr _ _ _ (by omega) (by omega)

theorem scan_progress_terminates_witness :
    occursAt "aaa".data "aa".data 0 = true ∧
      scanFuel "aaa".data "aa".data 7 0 = scanFrom "aaa".data "aa".data 0 :=
  ⟨(scan_progress_terminates "aaa".data "aa".data).1 0 (by decide),
   (scan_progress_terminates "aaa".data "aa".data).2.2 7 (by decide)⟩

/-! ## C1 — the emitted match set -/

lemma isFileAt_file_iff {n : Str} {c' : Option (List Str)} {p : List Str}
    {c : Option (List Str)} :
    IsFileAt (.file n c') p c ↔ p = [n] ∧ c = c' := by
  constructor
  · intro h
    cases h
    exact ⟨rfl, rfl⟩
  · rintro ⟨rfl, rfl⟩
    exact IsFileAt.fileSelf n c

lemma isFileAt_dir_iff {n : Str} {es : List FSEntry} {p : List Str}
    {c : Option (List Str)} :
    IsFileAt (.dir n es) p c ↔ ∃ q e, p = n :: q ∧ e ∈ es ∧ IsFileAt e q c := by
  constructor
  · intro h
    cases h with
    | dirStep _ _ e q _ hmem hsub => exact ⟨q, e, rfl, hmem, hsub⟩
  · rintro ⟨q, e, rfl, hmem, hsub⟩
    exact IsFileAt.dirStep n es e q c hmem hsub

lemma isFileAt_ne_nil {e : FSEntry} {p : List Str} {c : Option (List Str)}
    (h : IsFileAt e p c) : p ≠ [] := by
  cases h <;> simp

lemma mem_emittedTriples {msgs : List Msg} {p : List Str} {ln col : Nat} :
    (p, ln, col) ∈ emittedTriples msgs ↔ ∃ line, Msg.mtch p ln col line ∈ msgs := by
  induction msgs with
  | nil => simp [emittedTriples]
  | cons m rest ih =>
    cases m with
    | mtch q ln' col' line' =>
      rw [emittedTriples] at ih ⊢
      rw [List.filterMap_cons]
      simp only [List.mem_cons, Prod.mk.injEq]
      constructor
      · rintro (⟨rfl, rfl, rfl⟩ | h)
        · exact ⟨line', Or.inl rfl⟩
        · obtain ⟨line, hline⟩ := ih.mp h
          exact ⟨line, Or.inr hline⟩
      · rintro ⟨line, hmsg | hmsg⟩
        · cases hmsg
          exact Or.inl ⟨rfl, rfl, rfl⟩
        · exact Or.inr (ih.mpr ⟨line, hmsg⟩)
    | summary files nMatches =>
      rw [emittedTriples] at ih ⊢
      rw [List.filterMap_cons]
      simp only [List.mem_cons]
      rw [ih]
      constructor
      · rintro ⟨line, hline⟩
        exact ⟨line, Or.inr hline⟩
      · rintro ⟨line, hmsg | hmsg⟩
        · cases hmsg
        · exact ⟨line, hmsg⟩
    | done =>
      rw [emittedTriples] at ih ⊢
      rw [List.filterMap_cons]
      simp only [List.mem_cons]
      rw [ih]
      constructor
      · rintro ⟨line, hline⟩
        exact ⟨line, Or.inr hline⟩
      · rintro ⟨line, hmsg | hmsg⟩
        · cases hmsg
        · exact ⟨line, hmsg⟩

lemma mem_linesMsgs {path : List Str} {needle : Str} {mc : Bool} :
    ∀ (n : Nat) (lines : List Str) (q : List Str) (ln col : Nat) (line : Str),
      Msg.mtch q ln col line ∈ linesMsgs path needle mc n lines ↔
      (q = path ∧ ∃ i, lines.get? i = some line ∧ ln = n + i ∧
        col ∈ scanFrom (caseAdjust mc line) needle 0) := by
  intro n lines
  induction lines generalizing n with
  | nil => simp [linesMsgs]
  | cons l0 rest ih =>
    intro q ln col line
    rw [linesMsgs]
    rw [List.mem_append]
    constructor
    · rintro (hmap | htail)
      · rw [List.mem_map] at hmap
        obtain ⟨c, hc, heq⟩ := hmap
        cases heq
        exact ⟨rfl, 0, rfl, by omega, hc⟩
      · obtain ⟨rfl, i, hget, hln, hcol⟩ := (ih (n + 1) q ln col line).mp htail
        exact ⟨rfl, i + 1, by simpa using hget, by omega, hcol⟩
    · rintro ⟨rfl, i, hget, rfl, hcol⟩
      cases i with
      | zero =>
        left
        rw [List.mem_map]
        simp only [List.get?_cons_zero, Option.some.injEq] at hget
        subst hget
        exact ⟨col, hcol, by simp⟩
      | succ i' =>
        right
        refine (ih (n + 1) _ (n + (i' + 1)) col line).mpr ⟨rfl, i', ?_, by omega, hcol⟩
        simpa using hget

lemma emittedTriples_append (l1 l2 : List Msg) :
    emittedTriples (l1 ++ l2) = emittedTriples l1 ++ emittedTriples l2 := by
  rw [emittedTriples, emittedTriples, emittedTriples, List.filterMap_append]

lemma mem_searchFiles_triples {needle : Str} {mc : Bool} :
    ∀ (L : List (List Str × Option (List Str))) (p : List Str) (ln col : Nat),
      (p, ln, col) ∈ emittedTriples (searchFiles needle mc L).1 ↔
      ∃ lines line, (p, some lines) ∈ L ∧ 1 ≤ ln ∧
        lines.get? (ln - 1) = some line ∧
        col ∈ scanFrom (caseAdjust mc line) needle 0 := by
  intro L
  induction L with
  | nil => intro p ln col; simp [searchFiles, emittedTriples]
  | cons pc rest ih =>
    intro p ln col
    obtain ⟨q, c⟩ := pc
    cases c with
    | none =>
      rw [show searchFiles needle mc ((q, none) :: rest) = searchFiles needle mc rest from by
        rw [searchFiles]]
      rw [ih p ln col]
      constructor
      · rintro ⟨lines, line, hmem, h1, h2, h3⟩
        exact ⟨lines, line, List.mem_cons_of_mem _ hmem, h1, h2, h3⟩
      · rintro ⟨lines, line, hmem, h1, h2, h3⟩
        rcases List.mem_cons.mp hmem with heq | hmem'
        · exact absurd heq (by simp)
        · exact ⟨lines, line, hmem', h1, h2, h3⟩
    | some lines0 =>
      rw [show (searchFiles needle mc ((q, some lines0) :: rest)).1 =
            fileMsgs q lines0 needle mc ++ (searchFiles needle mc rest).1 from by
        simp only [searchFiles]]
      rw [emittedTriples_append, List.mem_append]
      constructor
      · rintro (h | h)
        · obtain ⟨line, hline⟩ := mem_emittedTriples.mp h
          rw [fileMsgs] at hline
          obtain ⟨rfl, i, hget, hln, hcol⟩ := (mem_linesMsgs 1 lines0 p ln col line).mp hline
          refine ⟨lines0, line, List.mem_cons_self _ _, by omega, ?_, hcol⟩
          rw [show ln - 1 = i from by omega]
          exact hget
        · obtain ⟨lines, line, hmem, h1, h2, h3⟩ := (ih p ln col).mp h
          exact ⟨lines, line, List.mem_cons_of_mem _ hmem, h1, h2, h3⟩
      · rintro ⟨lines, line, hmem, h1, h2, h3⟩
        rcases List.mem_cons.mp hmem with heq | hmem'
        · obtain ⟨rfl, hl⟩ : p = q ∧ lines = lines0 := by
            simpa using heq
          subst hl
          left
          refine mem_emittedTriples.mpr ⟨line, ?_⟩
          rw [fileMsgs]
          exact (mem_linesMsgs 1 _ p ln col line).mpr ⟨rfl, ln - 1, h2, by omega, h3⟩
        · right
          exact (ih p ln col).mpr ⟨lines, line, hmem', h1, h2, h3⟩

lemma getLast?_cons_of_ne_nil {n : Str} {q : List Str} (h : q ≠ []) :
    (n :: q).getLast? = q.getLast? := by
  cases q with
  | nil => exact absurd rfl h
  | cons b t => exact List.getLast?_cons_cons

lemma mem_walkList {pattern : Str} :
    ∀ (pfx : List Str) (es : List FSEntry) (p : List Str) (c : Option (List Str)),
      (p, c) ∈ walkList pattern pfx es ↔
      ∃ sfx, p = pfx ++ sfx ∧ (∃ e ∈ es, IsFileAt e sfx c) ∧
        (∃ nm, sfx.getLast? = some nm ∧ globMatch pattern nm = true) ∧
        sfx.all (fun n => !IGNORED_FILES_AND_DIRS.contains n) = true := by
  intro pfx es
  induction pfx, es using walkList.induct pattern with
  | case1 pfx =>
    intro p c
    simp [walkList]
  | case2 pfx n c0 rest ih =>
    intro p c
    rw [walkList, List.mem_append]
    have lhs_iff : (p, c) ∈
        (if IGNORED_FILES_AND_DIRS.contains n then []
         else if globMatch pattern n then [(pfx ++ [n], c0)] else []) ↔
        (IGNORED_FILES_AND_DIRS.contains n = false ∧ globMatch pattern n = true ∧
          p = pfx ++ [n] ∧ c = c0) := by
      by_cases h1 : IGNORED_FILES_AND_DIRS.contains n <;>
        by_cases h2 : globMatch pattern n <;> simp [h1, h2]
    rw [lhs_iff, ih p c]
    constructor
    · rintro (⟨hign, hglob, rfl, rfl⟩ | ⟨sfx, rfl, ⟨e, he, hfa⟩, hg, ha⟩)
      · refine ⟨[n], rfl, ⟨.file n c, List.mem_cons_self _ _, IsFileAt.fileSelf n c⟩,
          ⟨n, rfl, hglob⟩, ?_⟩
        simp only [List.all_cons, List.all_nil, Bool.and_true, hign]
        rfl
      · exact ⟨sfx, rfl, ⟨e, List.mem_cons_of_mem _ he, hfa⟩, hg, ha⟩
    · rintro ⟨sfx, rfl, ⟨e, he, hfa⟩, ⟨nm, hlast, hglob⟩, hall⟩
      rcases List.mem_cons.mp he with rfl | he'
      · obtain ⟨rfl, rfl⟩ := isFileAt_file_iff.mp hfa
        simp only [List.getLast?_singleton, Option.some.injEq] at hlast
        subst hlast
        simp only [List.all_cons, List.all_nil, Bool.and_true, Bool.not_eq_true'] at hall
        exact Or.inl ⟨hall, hglob, rfl, rfl⟩
      · exact Or.inr ⟨sfx, rfl, ⟨e, he', hfa⟩, ⟨nm, hlast, hglob⟩, hall⟩
  | case3 pfx n es0 rest ih1 ih2 =>
    intro p c
    rw [walkList, List.mem_append]
    have lhs_iff : (p, c) ∈
        (if IGNORED_FILES_AND_DIRS.contains n then []
         else walkList pattern (pfx ++ [n]) es0) ↔
        (IGNORED_FILES_AND_DIRS.contains n = false ∧
          (p, c) ∈ walkList pattern (pfx ++ [n]) es0) := by
      by_cases h1 : IGNORED_FILES_AND_DIRS.contains n <;> simp [h1]
    rw [lhs_iff, ih1 p c, ih2 p c]
    constructor
    · rintro (⟨hign, sfx', rfl, ⟨e, he, hfa⟩, ⟨nm, hlast, hglob⟩, hall⟩ |
        ⟨sfx, rfl, ⟨e, he, hfa⟩, hg, ha⟩)
      · refine ⟨n :: sfx', by simp, ⟨.dir n es0, List.mem_cons_self _ _,
          isFileAt_dir_iff.mpr ⟨sfx', e, rfl, he, hfa⟩⟩, ⟨nm, ?_, hglob⟩, ?_⟩
        · rw [getLast?_cons_of_ne_nil (isFileAt_ne_nil hfa)]
          exact hlast
        · rw [List.all_cons, hign]
          simp only [Bool.not_false, Bool.true_and]
          exact hall
      · exact ⟨sfx, rfl, ⟨e, List.mem_cons_of_mem _ he, hfa⟩, hg, ha⟩
    · rintro ⟨sfx, rfl, ⟨e, he, hfa⟩, ⟨nm, hlast, hglob⟩, hall⟩
      rcases List.mem_cons.mp he with rfl | he'
      · obtain ⟨q, e', rfl, he', hfa'⟩ := isFileAt_dir_iff.mp hfa
        rw [List.all_cons] at hall
        rw [getLast?_cons_of_ne_nil (isFileAt_ne_nil hfa')] at hlast
        refine Or.inl ⟨by simpa using (Bool.and_eq_true _ _).mp hall |>.1, q,
          List.append_cons pfx n q, ⟨e', he', hfa'⟩, ⟨nm, hlast, hglob⟩,
          (Bool.and_eq_true _ _).mp hall |>.2⟩
      · exact Or.inr ⟨sfx, rfl, ⟨e, he', hfa⟩, ⟨nm, hlast, hglob⟩, hall⟩

lemma mem_iterFiles {root : FSEntry} {pattern : Str} {p : List Str}
    {c : Option (List Str)} :
    (p, c) ∈ iterFiles root pattern ↔
    IsFileAt root p c ∧
    (∃ nm, p.getLast? = some nm ∧ globMatch pattern nm = true) ∧
    (p.drop 1).all (fun n => !IGNORED_FILES_AND_DIRS.contains n) = true := by
  cases root with
  | file n c0 =>
    rw [iterFiles]
    constructor
    · intro hmem
      by_cases hg : globMatch pattern n
      · rw [if_pos hg] at hmem
        obtain ⟨rfl, rfl⟩ : p = [n] ∧ c = c0 := by simpa using hmem
        exact ⟨IsFileAt.fileSelf n _, ⟨n, rfl, hg⟩, by simp⟩
      · rw [if_neg hg] at hmem
        cases hmem
    · rintro ⟨hfa, ⟨nm, hlast, hglob⟩, hall⟩
      obtain ⟨rfl, rfl⟩ := isFileAt_file_iff.mp hfa
      simp only [List.getLast?_singleton, Option.some.injEq] at hlast
      subst hlast
      rw [if_pos hglob]
      simp
  | dir n es =>
    rw [iterFiles, mem_walkList [n] es p c]
    constructor
    · rintro ⟨sfx, rfl, ⟨e, he, hfa⟩, ⟨nm, hlast, hglob⟩, hall⟩
      refine ⟨isFileAt_dir_iff.mpr ⟨sfx, e, by simp, he, hfa⟩, ⟨nm, ?_, hglob⟩, ?_⟩
      · rw [show ([n] ++ sfx : List Str) = n :: sfx from rfl,
          getLast?_cons_of_ne_nil (isFileAt_ne_nil hfa)]
        exact hlast
      · simpa using hall
    · rintro ⟨hfa, ⟨nm, hlast, hglob⟩, hall⟩
      obtain ⟨q, e, rfl, he, hfa'⟩ := isFileAt_dir_iff.mp hfa
      rw [getLast?_cons_of_ne_nil (isFileAt_ne_nil hfa')] at hlast
      refine ⟨q, rfl, ⟨e, he, hfa'⟩, ⟨nm, hlast, hglob⟩, ?_⟩
      simpa using hall

lemma runSearch_triples_iff (root : FSEntry) (pattern term : Str) (mc : Bool)
    (p : List Str) (ln col : Nat) :
    (p, ln, col) ∈ emittedTriples (runSearch root pattern term mc) ↔
    greedyHit root pattern term mc (p, ln, col) := by
  simp only [runSearch]
  rw [emittedTriples_append]
  rw [show emittedTriples [Msg.summary
      (searchFiles (caseAdjust mc term) mc (iterFiles root pattern)).2.1
      (searchFiles (caseAdjust mc term) mc (iterFiles root pattern)).2.2] = [] from rfl]
  rw [List.append_nil]
  rw [mem_searchFiles_triples (iterFiles root pattern) p ln col]
  rw [greedyHit]
  constructor
  · rintro ⟨lines, line, hmem, h1, h2, h3⟩
    obtain ⟨hfa, ⟨nm, hlast, hglob⟩, hall⟩ := mem_iterFiles.mp hmem
    exact ⟨nm, lines, line, hlast, hglob, hall, hfa, h1, h2, h3⟩
  · rintro ⟨nm, lines, line, hlast, hglob, hall, hfa, h1, h2, h3⟩
    exact ⟨lines, line, mem_iterFiles.mpr ⟨hfa, ⟨nm, hlast, hglob⟩, hall⟩, h1, h2, h3⟩

/-- C1 (counterexample): with the file `r/a.txt` containing the line `aaa`
and the case-sensitive term `aa`, the claimed set contains the offset-1
occurrence (the term occurs as a substring at offsets 0 *and* 1), but the
worker only emits the non-overlapping occurrence at offset 0 — the emitted
set does not equal the set of all substring-occurrence triples. -/
theorem search_matches_exact_counterexample :
    ¬ (∀ x, x ∈ emittedTriples (runSearch tree0 "*".data "aa".data true) ↔
        claimHit tree0 "*".data "aa".data true x) := by
  intro h
  have hclaim : claimHit tree0 "*".data "aa".data true
      (["r".data, "a.txt".data], 1, 1) := by
    refine ⟨"a.txt".data, ["aaa".data], "aaa".data, by decide, by decide, by decide,
      ?_, by decide, by decide, by decide⟩
    exact IsFileAt.dirStep _ _ _ _ _ (List.mem_cons_self _ _) (IsFileAt.fileSelf _ _)
  have hmem := (h _).mpr hclaim
  have hgreedy := (runSearch_triples_iff tree0 "*".data "aa".data true _ 1 1).mp hmem
  obtain ⟨nm, lines, line, hlast, hglob, hall, hfa, hln, hget, hcol⟩ := hgreedy
  have hfa' : IsFileAt (.dir "r".data [.file "a.txt".data (some ["aaa".data])])
      ["r".data, "a.txt".data] (some lines) := hfa
  obtain ⟨q, e, hpq, hmem', hsub⟩ := isFileAt_dir_iff.mp hfa'
  obtain rfl : q = ["a.txt".data] := by simpa using hpq.symm
  obtain rfl : e = .file "a.txt".data (some ["aaa".data]) := List.mem_singleton.mp hmem'
  obtain ⟨-, hlq⟩ := isFileAt_file_iff.mp hsub
  obtain rfl : lines = ["aaa".data] := by simpa using hlq
  obtain rfl : line = "aaa".data := by simpa using hget.symm
  exact absurd hcol (by decide)

/-- C1 (amended): for every root tree, glob, case flag and non-empty search
term, the set of `(path, 1-based line, 0-based offset)` triples emitted by
`_run_search` equals exactly the set of triples at which the greedy
left-to-right *non-overlapping* scan reports the term in the line under the
configured case sensitivity (each occurrence being the leftmost at or after
the previous occurrence's start plus `max(len(needle), 1)`) — restricted to
files whose base name matches the glob and excluding files and directories
below the root whose name is in the fixed ignore set (the root itself is
never checked against the ignore set). -/
theorem search_matches_exact (root : FSEntry) (pattern term : Str) (mc : Bool)
    (hterm : term ≠ []) :
    ∀ x, x ∈ emittedTriples (runSearch root pattern term mc) ↔
      greedyHit root pattern term mc x := by
  rintro ⟨p, ln, col⟩
  exact runSearch_triples_iff root pattern term mc p ln col

theorem search_matches_exact_witness :
    ("aa".data ≠ ([] : Str)) ∧
    (∀ x, x ∈ emittedTriples (runSearch tree0 "*".data "aa".data true) ↔
      greedyHit tree0 "*".data "aa".data true x) :=
  ⟨by decide, search_matches_exact tree0 "*".data "aa".data true (by decide)⟩
